import Mathlib

/-!
Verification development for the rates-only quadrant maximum-likelihood
search (`rates_only_quads_mle.py`).  The Python source is shallowly
embedded: event binning and the spectral-template interpolator are
modelled over the rationals (exact, executable), the profiled Poisson
likelihood over the reals, and non-finite floating-point results
(NaN or infinity from division by zero, logarithm of a non-positive
number, or the square root of a negative number) are modelled as `none`
in an `Option` result.
-/

set_option maxHeartbeats 1000000
set_option maxRecDepth 100000

/-- One event row of the event list: arrival time, energy, detector
pixel coordinates.  The validity flags are applied upstream of the
functions modelled here, so filtered lists stand for the events that
passed them. -/
structure Event where
  TIME : ℚ
  ENERGY : ℚ
  DETX : ℤ
  DETY : ℤ
deriving DecidableEq

/-- Quadrant 0 selection of `ev2quad_cnts`: `DETX < 142 and DETY < 86`. -/
def quad0B (e : Event) : Bool := decide (e.DETX < 142 ∧ e.DETY < 86)

/-- Quadrant 1 selection of `ev2quad_cnts`: `DETX < 142 and DETY > 86`. -/
def quad1B (e : Event) : Bool := decide (e.DETX < 142 ∧ 86 < e.DETY)

/-- Quadrant 2 selection of `ev2quad_cnts`: `DETX > 142 and DETY > 86`. -/
def quad2B (e : Event) : Bool := decide (142 < e.DETX ∧ 86 < e.DETY)

/-- Quadrant 3 selection of `ev2quad_cnts`: `DETX > 142 and DETY < 86`. -/
def quad3B (e : Event) : Bool := decide (142 < e.DETX ∧ e.DETY < 86)

/-- Embedding of `ev2quad_cnts`: the four per-quadrant counts of an
event list, obtained by summing the boolean selection masks. -/
def ev2quad_cnts (evs : List Event) : List ℕ :=
  [evs.countP quad0B, evs.countP quad1B, evs.countP quad2B, evs.countP quad3B]

/-- Membership of an event in time bin `i`:
`tbins0[i] <= TIME < tbins1[i]` (as in `get_quad_cnts_tbins`). -/
def inTBinB (tb0 tb1 : List ℚ) (i : ℕ) (e : Event) : Bool :=
  decide (tb0.getD i 0 ≤ e.TIME ∧ e.TIME < tb1.getD i 0)

/-- Membership of an event in energy bin `j`:
`ebins0[j] <= ENERGY < ebins1[j]` (as in `get_quad_cnts_tbins`). -/
def inEBinB (eb0 eb1 : List ℚ) (j : ℕ) (e : Event) : Bool :=
  decide (eb0.getD j 0 ≤ e.ENERGY ∧ e.ENERGY < eb1.getD j 0)

/-- Embedding of `get_quad_cnts_tbins`: for each time bin, filter events
by time, then for each energy bin filter by energy and take the four
quadrant counts, producing the 3-D count array
`[time bin, energy bin, quadrant]`. -/
def get_quad_cnts_tbins (tb0 tb1 eb0 eb1 : List ℚ) (evd : List Event) :
    List (List (List ℕ)) :=
  (List.range tb0.length).map (fun i =>
    ((List.range eb0.length).map (fun j =>
      ev2quad_cnts ((evd.filter (inTBinB tb0 tb1 i)).filter (inEBinB eb0 eb1 j)))))

/-- Sum of all entries of a 3-D count array. -/
def totalCnts (m : List (List (List ℕ))) : ℕ :=
  (m.map (fun a => (a.map List.sum).sum)).sum

/-- Two time bins and two energy bins with three events, all inside a
bin and off the quadrant midlines. -/
def tbW0 : List ℚ := [0, 1]

/-- Upper edges of the witness time bins. -/
def tbW1 : List ℚ := [1, 2]

/-- Lower edges of the witness energy bins. -/
def ebW0 : List ℚ := [10, 20]

/-- Upper edges of the witness energy bins. -/
def ebW1 : List ℚ := [20, 30]

/-- Witness event list: three events, each inside exactly one time bin
and one energy bin, none on a quadrant midline. -/
def evW : List Event :=
  [⟨0, 10, 0, 0⟩, ⟨1, 25, 200, 100⟩, ⟨mkRat 3 2, 15, 10, 100⟩]

/-- A single event inside the (unique) time and energy bin but sitting on
the `DETX = 142` quadrant midline. -/
def evMidEx : List Event := [⟨mkRat 1 2, mkRat 1 2, 142, 0⟩]

/-- Embedding of `np.arange(a, b, step)` for positive step: the values
`a + k * step` for `k` below the exact count `ceil((b - a) / step)`. -/
def np_arange (a b step : ℚ) : List ℚ :=
  (List.range (⌈(b - a) / step⌉).toNat).map (fun (k : ℕ) => a + (k : ℚ) * step)

/-- The cadence of doubling round `r`: the source starts at
`tstep = 0.064` and doubles it once per round (`tstep *= 2`). -/
def tstep_r (r : ℕ) : ℚ := 0.064 * 2 ^ r

/-- The bin width of doubling round `r`: the source starts at
`bin_size = 0.128` and doubles it once per round (`bin_size *= 2`). -/
def bin_size_r (r : ℕ) : ℚ := 0.128 * 2 ^ r

/-- Embedding of `t_bins0 = np.arange(-15.008, 15.008, tstep) + trig_time`
at doubling round `r`. -/
def t_bins0_r (r : ℕ) (trig : ℚ) : List ℚ :=
  (np_arange (-15.008) 15.008 (tstep_r r)).map (fun t => t + trig)

/-- Embedding of `t_bins1 = t_bins0 + bin_size` at doubling round `r`. -/
def t_bins1_r (r : ℕ) (trig : ℚ) : List ℚ :=
  (t_bins0_r r trig).map (fun t => t + bin_size_r r)

/-- Minimum of a list of rationals, modelling `np.min` on a non-empty
array. -/
def listMin (l : List ℚ) : ℚ := l.foldl min (l.headD 0)

/-- Maximum of a list of rationals, modelling `np.max` on a non-empty
array. -/
def listMax (l : List ℚ) : ℚ := l.foldl max (l.headD 0)

/-- First index of a minimal element, modelling `np.argmin` (ties are
resolved to the earliest index). -/
def argminL : List ℚ → ℕ
  | [] => 0
  | x :: xs =>
    if xs = [] then 0
    else if xs.getD (argminL xs) 0 < x then argminL xs + 1 else 0

/-- Python list indexing for rational arrays: a negative index counts
from the end of the list. -/
def pyIdx (l : List ℚ) (i : ℤ) : ℚ :=
  if i < 0 then l.getD (l.length - (-i).toNat) 0 else l.getD i.toNat 0

/-- Python list indexing for matrix rows: a negative index counts from
the end of the list. -/
def pyRow (m : List (List ℚ)) (i : ℤ) : List ℚ :=
  if i < 0 then m.getD (m.length - (-i).toNat) [] else m.getD i.toNat []

/-- The spectral template cache `cnts_norm_intp`: a matrix whose row `i`
is the normalized per-energy-bin template at grid index `ind_ax[i]`. -/
structure CntsNormIntp where
  cnt_ebins_norm_ind_mat : List (List ℚ)
  ind_ax : List ℚ

/-- `self.ind0 = np.min(ind_ax)`. -/
def CntsNormIntp.ind0 (c : CntsNormIntp) : ℚ := listMin c.ind_ax

/-- `self.ind1 = np.max(ind_ax)`. -/
def CntsNormIntp.ind1 (c : CntsNormIntp) : ℚ := listMax c.ind_ax

/-- Number of energy bins of the stored template matrix,
`np.shape(cnt_ebins_norm_ind_mat)[1]`. -/
def CntsNormIntp.ncols (c : CntsNormIntp) : ℕ :=
  (c.cnt_ebins_norm_ind_mat.headD []).length

/-- `ind_ind0 = np.argmin(np.abs(ind - self.ind_ax))` of
`cnts_norm_intp.__call__`. -/
def CntsNormIntp.i0 (c : CntsNormIntp) (x : ℚ) : ℕ :=
  argminL (c.ind_ax.map (fun a => |x - a|))

/-- `ind_ind1 = ind_ind0 + 1 if ind > ind_ax[ind_ind0] else ind_ind0 - 1`
of `cnts_norm_intp.__call__`. -/
def CntsNormIntp.i1 (c : CntsNormIntp) (x : ℚ) : ℤ :=
  if c.ind_ax.getD (c.i0 x) 0 < x then (c.i0 x : ℤ) + 1 else (c.i0 x : ℤ) - 1

/-- Denominator `np.abs(ind_ax[ind_ind0] - ind_ax[ind_ind1])` of the
interpolation weight `A0`. -/
def CntsNormIntp.den (c : CntsNormIntp) (x : ℚ) : ℚ :=
  |c.ind_ax.getD (c.i0 x) 0 - pyIdx c.ind_ax (c.i1 x)|

/-- Interpolation weight `A0 = np.abs(ind - ind_ax[ind_ind1]) / den`. -/
def CntsNormIntp.A0 (c : CntsNormIntp) (x : ℚ) : ℚ :=
  |x - pyIdx c.ind_ax (c.i1 x)| / c.den x

/-- Embedding of `cnts_norm_intp.__call__`: out of the open interval
`(ind0, ind1)` it returns a NaN vector (modelled as `none` entries) of
length `ncols`; otherwise the two neighbouring template rows are blended
with weights `A0` and `1 - A0`.  A zero denominator (repeated grid
value) would be a float division by zero, modelled as the NaN vector. -/
def CntsNormIntp.call (c : CntsNormIntp) (x : ℚ) : List (Option ℚ) :=
  if x ≤ c.ind0 ∨ c.ind1 ≤ x then List.replicate c.ncols none
  else if c.den x = 0 then List.replicate c.ncols none
  else
    List.zipWith (fun r0 r1 => some (c.A0 x * r0 + (1 - c.A0 x) * r1))
      (pyRow c.cnt_ebins_norm_ind_mat (c.i0 x : ℤ))
      (pyRow c.cnt_ebins_norm_ind_mat (c.i1 x))

/-- Embedding of `np.linspace(a, b, n)` (endpoint included). -/
def linspace (a b : ℚ) (n : ℕ) : List ℚ :=
  (List.range n).map (fun (k : ℕ) => a + (k : ℚ) * ((b - a) / ((n : ℚ) - 1)))

/-- The default photon-index grid of `main`:
`ind_ax = np.linspace(-1.5, 3.5, 20*5+1)`. -/
def indAxDefault : List ℚ := linspace (-1.5) 3.5 (20 * 5 + 1)

/-- Concrete interpolator used as the out-of-bounds witness. -/
def cIntpW5 : CntsNormIntp := ⟨[[1, 2], [3, 4]], [0, 1]⟩

/-- Concrete interpolator with grid `[0, 1, 2]`: grid point 0 sits on the
boundary of the open interval and is rejected by the guard. -/
def cIntpEx : CntsNormIntp := ⟨[[10], [20], [30]], [0, 1, 2]⟩

/-- Concrete interpolator used as the interior-grid-point witness. -/
def cIntpW6 : CntsNormIntp := ⟨[[1, 2], [3, 4], [5, 6]], [0, 1, 2]⟩

/-- Floating-point division: a zero denominator gives inf or NaN
(non-finite), modelled as `none`. -/
noncomputable def fdiv (x y : ℝ) : Option ℝ :=
  if y = 0 then none else some (x / y)

/-- Floating-point `np.log`: a non-positive argument gives `-inf` or NaN
(non-finite), modelled as `none`. -/
noncomputable def flog (x : ℝ) : Option ℝ :=
  if 0 < x then some (Real.log x) else none

/-- Discriminant of the profiled-background quadratic of
`profiled_bkg_llh`, the expression under the square root defining `d_i`
(with `sig2 = off_cnts_err**2`). -/
noncomputable def quad_disc (d s sdt o odt sig : ℝ) : ℝ :=
  (sdt * sig ^ 2 - odt * o + odt ^ 2 * s) ^ 2 -
    4 * odt ^ 2 * (sdt * sig ^ 2 * s - d * sig ^ 2 - odt * o * s)

/-- The profiled background rate of `profiled_bkg_llh`: the root of the
quadratic taken with the plus branch,
`f_i = (-(sdt*sig2 - odt*o + s*odt**2) + d_i) / (2*odt**2)`. -/
noncomputable def f_i (d s sdt o odt sig : ℝ) : ℝ :=
  (-(sdt * sig ^ 2 - odt * o + s * odt ^ 2) +
    Real.sqrt (quad_disc d s sdt o odt sig)) / (2 * odt ^ 2)

/-- One energy bin of the `llh` vector of `profiled_bkg_llh`:
`sdt*(s + f_i) - d*log(sdt*(s + f_i)) + (o - odt*f_i)**2/(2*sig2)
 - d*(1 - log(d))`.  A negative discriminant (NaN square root), a zero
`odt` (division by zero in `f_i`), a non-positive logarithm argument or
a zero `sig` (division by zero in the Gaussian penalty) all make the
float result non-finite, modelled as `none`. -/
noncomputable def llh_bin (d s sdt o odt sig : ℝ) : Option ℝ :=
  if quad_disc d s sdt o odt sig < 0 then none
  else if odt = 0 then none
  else
    (flog (sdt * (s + f_i d s sdt o odt sig))).bind (fun lg =>
      (fdiv ((o - odt * f_i d s sdt o odt sig) ^ 2) (2 * sig ^ 2)).bind (fun pen =>
        (flog d).map (fun nl =>
          sdt * (s + f_i d s sdt o odt sig) - d * lg + pen - d * (1 - nl))))

/-- `np.sum` over the per-bin likelihood vector: one NaN entry poisons
the whole sum. -/
noncomputable def optSum : List (Option ℝ) → Option ℝ
  | [] => some 0
  | x :: xs => x.bind (fun a => (optSum xs).map (fun b => a + b))

/-- Embedding of `profiled_bkg_llh` (scalar return, `ret_f=False`): the
per-energy-bin inputs are zipped and the per-bin likelihood terms are
summed.  A NaN trial signal rate (`none` entry of `ss`) poisons its
bin. -/
noncomputable def profiled_bkg_llh (ds : List ℝ) (ss : List (Option ℝ)) (sdt : ℝ)
    (os : List ℝ) (odt : ℝ) (sigs : List ℝ) : Option ℝ :=
  optSum ((((ds.zip ss).zip os).zip sigs).map
    (fun q => q.1.1.2.bind (fun s => llh_bin q.1.1.1 s sdt q.1.2 odt q.2)))

/-- The per-bin background roots returned by `profiled_bkg_llh` when
`ret_f=True`. -/
noncomputable def profiled_bkg_llh_f (ds ss : List ℝ) (sdt : ℝ)
    (os : List ℝ) (odt : ℝ) (sigs : List ℝ) : List ℝ :=
  (((ds.zip ss).zip os).zip sigs).map
    (fun q => f_i q.1.1.1 q.1.1.2 sdt q.1.2 odt q.2)

/-- Embedding of `rates_llh`: scales the normalized template by
`nsig / sig_dt` and calls the profiled likelihood. -/
noncomputable def rates_llh (data : List ℝ) (nsig : ℝ)
    (sig_e_normed : List (Option ℝ)) (bkg_cnts bkg_err : List ℝ)
    (sig_dt bkg_dt : ℝ) : Option ℝ :=
  profiled_bkg_llh data
    (sig_e_normed.map (fun oe =>
      (fdiv nsig sig_dt).bind (fun rr => oe.map (fun v => rr * v))))
    sig_dt bkg_cnts bkg_dt bkg_err

/-- Embedding of `rate_llh2min`: `nsig = 10**theta[0]`, and a spectral
index `theta[1]` outside `[-1, 3]` returns `np.inf` (modelled as
`some top` of `EReal`) before the template interpolator is consulted;
otherwise the finite (or NaN, `none`) likelihood is returned. -/
noncomputable def rate_llh2min (theta : ℝ × ℝ) (data bkg_cnts bkg_err : List ℝ)
    (sig_dt bkg_dt : ℝ) (cnorm_obj : ℝ → List (Option ℝ)) : Option EReal :=
  if theta.2 < -1 ∨ 3 < theta.2 then some ⊤
  else
    (rates_llh data ((10 : ℝ) ^ theta.1) (cnorm_obj theta.2) bkg_cnts bkg_err
      sig_dt bkg_dt).map (fun v => (v : EReal))

/-- One row of the final result table: time bounds and the two
log-likelihoods entering the likelihood-ratio statistic. -/
structure ResRow where
  tstart : ℚ
  tstop : ℚ
  bkg_llh : ℝ
  sig_llh : ℝ

/-- `np.isclose(a, b)` with the default tolerances
`rtol = 1e-5`, `atol = 1e-8`. -/
def isclose (a b : ℚ) : Bool :=
  decide (|a - b| ≤ mkRat 1 100000000 + mkRat 1 100000 * |b|)

/-- The exposure column `exps = tab["tstop"] - tab["tstart"]`. -/
def rowExp (r : ResRow) : ℚ := r.tstop - r.tstart

/-- Duration class `i` of the trials loop: `0.128 * (2 ** i)`. -/
def classVal (i : ℕ) : ℚ := 0.128 * 2 ^ i

/-- `dt_tot = np.max(tab["tstop"]) - np.min(tab["tstart"])`. -/
def dtTot (rows : List ResRow) : ℚ :=
  listMax (rows.map ResRow.tstop) - listMin (rows.map ResRow.tstart)

/-- `np.sum(bl_exp)`: the number of rows whose exposure is close to
duration class `i`. -/
def countClass (rows : List ResRow) (i : ℕ) : ℕ :=
  rows.countP (fun r => isclose (rowExp r) (classVal i))

/-- The trials-correction loop of `main` applied to one row: start from
`pvals = stats.chi2.sf(2*llhr, 1)` and, for each duration class
`i < ndbl + 1`, multiply the rows of that class by
`np.sum(bl_exp) / dt_tot`. -/
noncomputable def correctedP (chi2sf : ℝ → ℝ) (rows : List ResRow) (ndbl : ℕ)
    (r : ResRow) : ℝ :=
  (List.range (ndbl + 1)).foldl
    (fun p i =>
      if isclose (rowExp r) (classVal i) then
        p * ((countClass rows i : ℝ) / ((dtTot rows : ℚ) : ℝ))
      else p)
    (chi2sf (2 * (r.bkg_llh - r.sig_llh)))

/-- The final p-value column: `pvals = 1.0 - np.exp(-pvals)` after the
trials-correction loop. -/
noncomputable def finalPval (chi2sf : ℝ → ℝ) (rows : List ResRow) (ndbl : ℕ)
    (r : ResRow) : ℝ :=
  1 - Real.exp (-(correctedP chi2sf rows ndbl r))

/-- First row of the trials-correction witness table: exposure 0.128
(duration class 0). -/
noncomputable def rW1 : ResRow := ⟨0, 0.128, 1, 0⟩

/-- Witness result table: one row of exposure 0.128 (class 0) and one
row of exposure 0.256 (class 1). -/
noncomputable def rowsW : List ResRow := [rW1, ⟨0, 0.256, 1, 0⟩]

lemma sum_map_indicator {α : Type} (l : List α) (p : α → Bool) :
    (l.map (fun a => if p a then (1 : ℕ) else 0)).sum = l.countP p := by
  induction l with
  | nil => simp
  | cons a l ih => simp [List.countP_cons, ih, Nat.add_comm]

lemma countP_range_swap {α β : Type} (L : List α) (R : List β) (p : β → α → Bool)
    (h : ∀ e ∈ L, R.countP (fun j => p j e) = 1) :
    (R.map (fun j => L.countP (p j))).sum = L.length := by
  induction L with
  | nil => simp
  | cons e L ih =>
      simp only [List.countP_cons]
      rw [List.sum_map_add]
      rw [ih (fun x hx => h x (List.mem_cons_of_mem _ hx))]
      rw [sum_map_indicator, h e (List.mem_cons_self e L), List.length_cons]

lemma quad_indicators_le_one (e : Event) :
    ((if quad0B e then 1 else 0) + (if quad1B e then 1 else 0) +
      (if quad2B e then 1 else 0) + (if quad3B e then 1 else 0) : ℕ) ≤ 1 := by
  simp only [quad0B, quad1B, quad2B, quad3B, decide_eq_true_eq]
  split_ifs <;> omega

lemma quad_indicators_eq_one (e : Event) (hx : e.DETX ≠ 142) (hy : e.DETY ≠ 86) :
    ((if quad0B e then 1 else 0) + (if quad1B e then 1 else 0) +
      (if quad2B e then 1 else 0) + (if quad3B e then 1 else 0) : ℕ) = 1 := by
  simp only [quad0B, quad1B, quad2B, quad3B, decide_eq_true_eq]
  split_ifs <;> omega

lemma quad_none_of_mid (e : Event) (h : e.DETX = 142 ∨ e.DETY = 86) :
    quad0B e = false ∧ quad1B e = false ∧ quad2B e = false ∧ quad3B e = false := by
  simp only [quad0B, quad1B, quad2B, quad3B, decide_eq_false_iff_not, not_and]
  rcases h with h | h <;>
    refine ⟨fun h1 => ?_, fun h1 => ?_, fun h1 => ?_, fun h1 => ?_⟩ <;> omega

lemma ev2quad_cnts_sum_cons (e : Event) (evs : List Event) :
    (ev2quad_cnts (e :: evs)).sum =
      (ev2quad_cnts evs).sum +
        ((if quad0B e then 1 else 0) + (if quad1B e then 1 else 0) +
          (if quad2B e then 1 else 0) + (if quad3B e then 1 else 0)) := by
  simp [ev2quad_cnts, List.countP_cons]
  ring

lemma ev2quad_cnts_sum_le (evs : List Event) :
    (ev2quad_cnts evs).sum ≤ evs.length := by
  induction evs with
  | nil => simp [ev2quad_cnts]
  | cons e evs ih =>
      rw [ev2quad_cnts_sum_cons]
      have := quad_indicators_le_one e
      simp only [List.length_cons]
      omega

lemma ev2quad_cnts_sum_eq (evs : List Event)
    (h : ∀ e ∈ evs, e.DETX ≠ 142 ∧ e.DETY ≠ 86) :
    (ev2quad_cnts evs).sum = evs.length := by
  induction evs with
  | nil => simp [ev2quad_cnts]
  | cons e evs ih =>
      rw [ev2quad_cnts_sum_cons]
      have h1 := quad_indicators_eq_one e (h e (by simp)).1 (h e (by simp)).2
      have h2 := ih (fun x hx => h x (by simp [hx]))
      simp only [List.length_cons]
      omega

/-- C10: every event is counted in at most one quadrant, an event on a
quadrant midline (`DETX = 142` or `DETY = 86`) is counted in no quadrant
because all four selections use strict inequalities, and hence the four
quadrant counts of `ev2quad_cnts` sum to at most the number of events. -/
theorem ev2quad_cnts_at_most_one_quad (evs : List Event) :
    (ev2quad_cnts evs).sum ≤ evs.length ∧
    (∀ e : Event, (e.DETX = 142 ∨ e.DETY = 86) →
      quad0B e = false ∧ quad1B e = false ∧ quad2B e = false ∧ quad3B e = false) ∧
    (∀ e : Event,
      ((if quad0B e then 1 else 0) + (if quad1B e then 1 else 0) +
        (if quad2B e then 1 else 0) + (if quad3B e then 1 else 0) : ℕ) ≤ 1) :=
  ⟨ev2quad_cnts_sum_le evs, fun e he => quad_none_of_mid e he,
    fun e => quad_indicators_le_one e⟩

/-- Witness for C10 at a concrete input: a single event sitting exactly on
both midlines is counted in no quadrant and the counts sum to zero. -/
theorem ev2quad_cnts_at_most_one_quad_witness :
    (ev2quad_cnts [⟨0, 50, 142, 86⟩]).sum ≤ 1 ∧
    (quad0B ⟨0, 50, 142, 86⟩ = false ∧ quad1B ⟨0, 50, 142, 86⟩ = false ∧
      quad2B ⟨0, 50, 142, 86⟩ = false ∧ quad3B ⟨0, 50, 142, 86⟩ = false) :=
  ⟨(ev2quad_cnts_at_most_one_quad [⟨0, 50, 142, 86⟩]).1,
    (ev2quad_cnts_at_most_one_quad [⟨0, 50, 142, 86⟩]).2.1 ⟨0, 50, 142, 86⟩
      (Or.inl rfl)⟩

/-- C8 counterexample: a single event whose time and energy fall inside
the (unique) time and energy bin, but whose `DETX` coordinate is exactly
142, is dropped by the strict quadrant inequalities, so the total of the
3-D count array is 0 and not the number of events. -/
theorem quad_cnts_midline_drop_counterexample :
    (∀ e ∈ evMidEx,
        (List.range 1).countP (fun i => inTBinB [0] [1] i e) = 1 ∧
        (List.range 1).countP (fun j => inEBinB [0] [1] j e) = 1) ∧
    totalCnts (get_quad_cnts_tbins [0] [1] [0] [1] evMidEx) ≠ evMidEx.length := by
  decide

/-- C8 (amended): if every event lies in exactly one time bin and exactly
one energy bin and sits on neither quadrant midline (`DETX` distinct from
142 and `DETY` distinct from 86), then the sum of all entries of the 3-D
count array produced by `get_quad_cnts_tbins` equals the number of
events: none droppedand none double-counted. -/
theorem quad_cnts_total_eq_nevents (tb0 tb1 eb0 eb1 : List ℚ) (evd : List Event)
    (ht : ∀ e ∈ evd, (List.range tb0.length).countP (fun i => inTBinB tb0 tb1 i e) = 1)
    (he : ∀ e ∈ evd, (List.range eb0.length).countP (fun j => inEBinB eb0 eb1 j e) = 1)
    (hq : ∀ e ∈ evd, e.DETX ≠ 142 ∧ e.DETY ≠ 86) :
    totalCnts (get_quad_cnts_tbins tb0 tb1 eb0 eb1 evd) = evd.length := by
  unfold totalCnts get_quad_cnts_tbins
  rw [List.map_map]
  have hstep : ((List.range tb0.length).map
      ((fun a => (List.map List.sum a).sum) ∘ fun i => (List.range eb0.length).map
        (fun j => ev2quad_cnts
          ((evd.filter (inTBinB tb0 tb1 i)).filter (inEBinB eb0 eb1 j))))) =
      (List.range tb0.length).map (fun i => evd.countP (inTBinB tb0 tb1 i)) := by
    apply List.map_congr_left
    intro i _
    simp only [Function.comp]
    rw [List.map_map]
    have h2 : ((List.range eb0.length).map
        (List.sum ∘ fun j => ev2quad_cnts
          ((evd.filter (inTBinB tb0 tb1 i)).filter (inEBinB eb0 eb1 j)))) =
        (List.range eb0.length).map
          (fun j => (evd.filter (inTBinB tb0 tb1 i)).countP (inEBinB eb0 eb1 j)) := by
      apply List.map_congr_left
      intro j _
      simp only [Function.comp]
      rw [ev2quad_cnts_sum_eq]
      · exact (List.countP_eq_length_filter _ _).symm
      · intro e hemem
        exact hq e (List.mem_of_mem_filter (List.mem_of_mem_filter hemem))
    rw [h2, countP_range_swap _ _ _
        (fun e hemem => he e (List.mem_of_mem_filter hemem))]
    exact (List.countP_eq_length_filter _ _).symm
  rw [hstep, countP_range_swap _ _ _ ht]

/-- Witness for C8 at a concrete input: three events across two time bins
and two energy bins, all inside bins and off the midlines, are all
counted. -/
theorem quad_cnts_total_eq_nevents_witness :
    ((∀ e ∈ evW, (List.range tbW0.length).countP (fun i => inTBinB tbW0 tbW1 i e) = 1) ∧
      (∀ e ∈ evW, (List.range ebW0.length).countP (fun j => inEBinB ebW0 ebW1 j e) = 1) ∧
      (∀ e ∈ evW, e.DETX ≠ 142 ∧ e.DETY ≠ 86)) ∧
    totalCnts (get_quad_cnts_tbins tbW0 tbW1 ebW0 ebW1 evW) = evW.length :=
  ⟨⟨by decide, by decide, by decide⟩,
    quad_cnts_total_eq_nevents tbW0 tbW1 ebW0 ebW1 evW (by decide) (by decide)
      (by decide)⟩

lemma np_arange_getD (a b step : ℚ) (i : ℕ) (h : i < (np_arange a b step).length) :
    (np_arange a b step).getD i 0 = a + (i : ℚ) * step := by
  unfold np_arange at h ⊢
  rw [List.getD_eq_getElem _ _ h]
  simp

lemma t_bins0_r_len (r : ℕ) (trig : ℚ) :
    (t_bins0_r r trig).length = (np_arange (-15.008) 15.008 (tstep_r r)).length := by
  simp [t_bins0_r]

lemma t_bins0_r_getD (r : ℕ) (trig : ℚ) (i : ℕ) (h : i < (t_bins0_r r trig).length) :
    (t_bins0_r r trig).getD i 0 = -15.008 + (i : ℚ) * tstep_r r + trig := by
  unfold t_bins0_r at h ⊢
  rw [List.getD_eq_getElem _ _ h]
  rw [List.getElem_map]
  rw [← List.getD_eq_getElem _ 0]
  rw [np_arange_getD]
  exact (List.length_map _ _) ▸ h

lemma t_bins1_r_getD (r : ℕ) (trig : ℚ) (i : ℕ) (h : i < (t_bins0_r r trig).length) :
    (t_bins1_r r trig).getD i 0 =
      -15.008 + (i : ℚ) * tstep_r r + trig + bin_size_r r := by
  unfold t_bins1_r
  have h1 : i < ((t_bins0_r r trig).map (fun t => t + bin_size_r r)).length := by
    simpa using h
  rw [List.getD_eq_getElem _ _ h1]
  rw [List.getElem_map]
  rw [← List.getD_eq_getElem _ 0]
  rw [t_bins0_r_getD r trig i h]

lemma bin_size_eq_two_tstep (r : ℕ) : bin_size_r r = 2 * tstep_r r := by
  rw [bin_size_r, tstep_r]
  have h : (0.128 : ℚ) = 2 * 0.064 := by norm_num
  rw [h]
  ring

/-- C9 counterexample: at the first doubling round the cadence is 0.064
but the bin width is 0.128, so the stop of the first bin is not the start
of the second bin: consecutive bins overlap instead of being contiguous. -/
theorem tbins_not_contiguous_counterexample :
    1 < (t_bins0_r 0 0).length ∧
    (t_bins1_r 0 0).getD 0 0 ≠ (t_bins0_r 0 0).getD 1 0 := by
  with_unfolding_all decide

/-- C9 (amended): the generated time bins overlap at half steps: the
cadence equals half the bin width, so the stop of bin `i` equals the
start of bin `i + 2` (not of bin `i + 1`), and the cadence and the bin
width double together from one doubling round to the next. -/
theorem tbins_halfstep_overlap_doubling (r : ℕ) (trig : ℚ) (i : ℕ)
    (h : i + 2 < (t_bins0_r r trig).length) :
    (t_bins1_r r trig).getD i 0 = (t_bins0_r r trig).getD (i + 2) 0 ∧
    tstep_r (r + 1) = 2 * tstep_r r ∧
    bin_size_r (r + 1) = 2 * bin_size_r r ∧
    bin_size_r r = 2 * tstep_r r := by
  refine ⟨?_, ?_, ?_, bin_size_eq_two_tstep r⟩
  · rw [t_bins1_r_getD r trig i (by omega), t_bins0_r_getD r trig (i + 2) h]
    rw [bin_size_eq_two_tstep r]
    push_cast
    ring
  · rw [tstep_r, tstep_r, pow_succ]
    ring
  · rw [bin_size_r, bin_size_r, pow_succ]
    ring

/-- Witness for C9 at the first round with trigger time 0 and bin 0. -/
theorem tbins_halfstep_overlap_doubling_witness :
    0 + 2 < (t_bins0_r 0 0).length ∧
    ((t_bins1_r 0 0).getD 0 0 = (t_bins0_r 0 0).getD (0 + 2) 0 ∧
      tstep_r (0 + 1) = 2 * tstep_r 0 ∧
      bin_size_r (0 + 1) = 2 * bin_size_r 0 ∧
      bin_size_r 0 = 2 * tstep_r 0) :=
  ⟨by with_unfolding_all decide,
    tbins_halfstep_overlap_doubling 0 0 0 (by with_unfolding_all decide)⟩

lemma foldl_min_of_le (a : ℚ) (l : List ℚ) (h : ∀ y ∈ l, a ≤ y) :
    l.foldl min a = a := by
  induction l generalizing a with
  | nil => rfl
  | cons x xs ih =>
      have hx : min a x = a := min_eq_left (h x (by simp))
      simp only [List.foldl_cons, hx]
      exact ih a (fun y hy => h y (by simp [hy]))

lemma foldl_max_of_le (a : ℚ) (l : List ℚ) (h : ∀ y ∈ l, y ≤ a) :
    l.foldl max a = a := by
  induction l generalizing a with
  | nil => rfl
  | cons x xs ih =>
      have hx : max a x = a := max_eq_left (h x (by simp))
      simp only [List.foldl_cons, hx]
      exact ih a (fun y hy => h y (by simp [hy]))

lemma foldl_max_reaches (l : List ℚ) (b : ℚ) (hb : b ∈ l)
    (hble : ∀ y ∈ l, y ≤ b) : ∀ a, a ≤ b → l.foldl max a = b := by
  induction l with
  | nil => cases hb
  | cons x xs ih =>
      intro a ha
      rcases List.mem_cons.mp hb with hbx | hbxs
      · subst hbx
        simp only [List.foldl_cons, max_eq_right ha]
        exact foldl_max_of_le b xs (fun y hy => hble y (by simp [hy]))
      · simp only [List.foldl_cons]
        exact ih hbxs (fun y hy => hble y (by simp [hy])) (max a x)
          (max_le ha (hble x (by simp)))

lemma pairwise_getD_lt (l : List ℚ) (hpw : l.Pairwise (· < ·)) (i j : ℕ)
    (hij : i < j) (hj : j < l.length) : l.getD i 0 < l.getD j 0 := by
  rw [List.getD_eq_getElem l 0 (by omega), List.getD_eq_getElem l 0 hj]
  exact List.pairwise_iff_get.mp hpw ⟨i, by omega⟩ ⟨j, hj⟩ hij

lemma listMin_sorted_getD (l : List ℚ) (hne : 0 < l.length)
    (hpw : l.Pairwise (· < ·)) : listMin l = l.getD 0 0 := by
  cases l with
  | nil => simp at hne
  | cons x xs =>
      have hx : ∀ y ∈ xs, x ≤ y :=
        fun y hy => le_of_lt ((List.pairwise_cons.mp hpw).1 y hy)
      unfold listMin
      simp only [List.headD_cons, List.foldl_cons, min_self, List.getD_cons_zero]
      exact foldl_min_of_le x xs hx

lemma sorted_le_last (l : List ℚ) (hpw : l.Pairwise (· < ·)) (y : ℚ)
    (hy : y ∈ l) : y ≤ l.getD (l.length - 1) 0 := by
  rcases List.mem_iff_get.mp hy with ⟨⟨i, hi⟩, hg⟩
  have hgi : y = l.getD i 0 := by
    rw [List.getD_eq_getElem l 0 hi, ← hg]
    exact List.get_eq_getElem l ⟨i, hi⟩
  rcases Nat.lt_or_ge i (l.length - 1) with hlt | hge
  · exact hgi ▸ le_of_lt (pairwise_getD_lt l hpw i (l.length - 1) hlt (by omega))
  · have hieq : i = l.length - 1 := by omega
    rw [hgi, hieq]

lemma listMax_sorted_getD (l : List ℚ) (hne : 0 < l.length)
    (hpw : l.Pairwise (· < ·)) : listMax l = l.getD (l.length - 1) 0 := by
  cases l with
  | nil => simp at hne
  | cons x xs =>
      have hble : ∀ y ∈ (x :: xs), y ≤ (x :: xs).getD ((x :: xs).length - 1) 0 :=
        fun y hy => sorted_le_last _ hpw y hy
      have hmem : (x :: xs).getD ((x :: xs).length - 1) 0 ∈ (x :: xs) := by
        rw [List.getD_eq_getElem _ 0 (by simp)]
        exact List.getElem_mem _
      unfold listMax
      simp only [List.headD_cons, List.foldl_cons, max_self]
      rcases List.mem_cons.mp hmem with hbx | hbxs
      · rw [hbx]
        exact foldl_max_of_le x xs
          (fun y hy => hbx ▸ hble y (List.mem_cons_of_mem _ hy))
      · exact foldl_max_reaches xs _ hbxs
          (fun y hy => hble y (List.mem_cons_of_mem _ hy)) x
          (hble x (List.mem_cons_self x xs))

/-- C5: any query at or outside the grid extremes returns the NaN vector
(all entries `none`) whose length is the number of template columns. -/
theorem intp_out_of_bounds_nan (c : CntsNormIntp) (x : ℚ)
    (h : x ≤ c.ind0 ∨ c.ind1 ≤ x) :
    c.call x = List.replicate c.ncols none ∧ (c.call x).length = c.ncols := by
  have hc : c.call x = List.replicate c.ncols none := by
    unfold CntsNormIntp.call
    rw [if_pos h]
  exact ⟨hc, by rw [hc, List.length_replicate]⟩

/-- Witness for C5: a query below the grid minimum returns a 2-entry NaN
vector matching the 2 columns of the stored matrix. -/
theorem intp_out_of_bounds_nan_witness :
    ((-5 : ℚ) ≤ cIntpW5.ind0 ∨ cIntpW5.ind1 ≤ (-5 : ℚ)) ∧
    (cIntpW5.call (-5) = List.replicate cIntpW5.ncols none ∧
      (cIntpW5.call (-5)).length = cIntpW5.ncols) :=
  ⟨by with_unfolding_all decide,
    intp_out_of_bounds_nan cIntpW5 (-5) (by with_unfolding_all decide)⟩

lemma argminL_lt_length : ∀ (l : List ℚ), l ≠ [] → argminL l < l.length := by
  intro l
  induction l with
  | nil => intro h; cases h rfl
  | cons x xs ih =>
      intro _
      by_cases hxs : xs = []
      · subst hxs
        simp [argminL]
      · simp only [argminL, if_neg hxs]
        by_cases hlt : xs.getD (argminL xs) 0 < x
        · rw [if_pos hlt]
          have := ih hxs
          simp only [List.length_cons]
          omega
        · rw [if_neg hlt]
          simp

lemma argminL_eq_of_unique_zero : ∀ (l : List ℚ) (k : ℕ), k < l.length →
    l.getD k 0 = 0 → (∀ j, j < l.length → j ≠ k → 0 < l.getD j 0) →
    argminL l = k := by
  intro l
  induction l with
  | nil => intro k hk; simp at hk
  | cons x xs ih =>
      intro k hk h0 hpos
      cases k with
      | zero =>
          have hx0 : x = 0 := by simpa using h0
          by_cases hxs : xs = []
          · simp [argminL, hxs]
          · have hj := argminL_lt_length xs hxs
            have hval : 0 < xs.getD (argminL xs) 0 := by
              have := hpos (argminL xs + 1) (by simp; omega) (by omega)
              simpa [List.getD_cons_succ] using this
            simp only [argminL, if_neg hxs]
            rw [if_neg (by rw [hx0]; exact not_lt.mpr (le_of_lt hval))]
      | succ k =>
          have hx : 0 < x := by
            have := hpos 0 (by simp) (by omega)
            simpa using this
          have hklen : k < xs.length := by
            simp only [List.length_cons] at hk
            omega
          have hxs : xs ≠ [] := by
            intro hcon
            rw [hcon] at hklen
            simp at hklen
          have ihk : argminL xs = k :=
            ih k hklen (by simpa [List.getD_cons_succ] using h0)
              (fun j hj hne => by
                have := hpos (j + 1) (by simp; omega) (by omega)
                simpa [List.getD_cons_succ] using this)
          simp only [argminL, if_neg hxs, ihk]
          rw [if_pos]
          have h0x : xs.getD k 0 = 0 := by simpa [List.getD_cons_succ] using h0
          rw [h0x]
          exact hx

lemma zipWith_weight_one (l1 l2 : List ℚ) (h : l1.length ≤ l2.length) :
    List.zipWith (fun r0 r1 => some ((1 : ℚ) * r0 + (1 - 1) * r1)) l1 l2 =
      l1.map some := by
  induction l1 generalizing l2 with
  | nil => simp
  | cons a l ih =>
      cases l2 with
      | nil => simp at h
      | cons b l2 =>
          simp only [List.zipWith_cons_cons, List.map_cons]
          have ha : (1 : ℚ) * a + (1 - 1) * b = a := by ring
          rw [ha, ih l2 (by simpa using h)]

lemma getD_map_abs (ax : List ℚ) (x : ℚ) (j : ℕ) (hj : j < ax.length) :
    (ax.map (fun a => |x - a|)).getD j 0 = |x - ax.getD j 0| := by
  rw [List.getD_eq_getElem _ 0 (by simpa using hj), List.getElem_map,
    List.getD_eq_getElem _ 0 hj]

/-- C6 counterexample: the grid point at index 0 of a 3-point grid is a
grid point, yet querying the interpolator exactly there hits the
out-of-bounds guard (`ind <= ind0`) and returns the NaN vector instead of
the stored row. -/
theorem intp_grid_endpoint_nan_counterexample :
    cIntpEx.ind_ax.getD 0 0 = 0 ∧
    cIntpEx.cnt_ebins_norm_ind_mat.getD 0 [] = [10] ∧
    cIntpEx.call 0 ≠ [some 10] := by
  with_unfolding_all decide

/-- C6 (amended): querying the interpolator exactly at an interior grid
point (index `k` with `0 < k < length - 1`, so the value is strictly
between the grid extremes) returns the stored template row unchanged.
At the two boundary grid points the out-of-bounds guard returns the NaN
vector instead. -/
theorem intp_interior_grid_idempotent (c : CntsNormIntp) (k : ℕ)
    (hk0 : 0 < k) (hk1 : k + 1 < c.ind_ax.length)
    (hpw : c.ind_ax.Pairwise (· < ·))
    (hmlen : c.cnt_ebins_norm_ind_mat.length = c.ind_ax.length)
    (hrect : ∀ row ∈ c.cnt_ebins_norm_ind_mat, row.length = c.ncols) :
    c.call (c.ind_ax.getD k 0) =
      (c.cnt_ebins_norm_ind_mat.getD k []).map some := by
  have hklen : k < c.ind_ax.length := by omega
  have hi0 : c.i0 (c.ind_ax.getD k 0) = k := by
    apply argminL_eq_of_unique_zero
    · simpa using hklen
    · rw [getD_map_abs c.ind_ax _ k hklen]
      simp
    · intro j hj hne
      have hjlen : j < c.ind_ax.length := by simpa using hj
      rw [getD_map_abs c.ind_ax _ j hjlen]
      rcases Nat.lt_or_ge j k with hlt | hge
      · have := pairwise_getD_lt c.ind_ax hpw j k hlt hklen
        rw [abs_pos, sub_ne_zero]
        exact (ne_of_gt this)
      · have hgt : k < j := by omega
        have := pairwise_getD_lt c.ind_ax hpw k j hgt hjlen
        rw [abs_pos, sub_ne_zero]
        exact (ne_of_lt this)
  have hguard : ¬(c.ind_ax.getD k 0 ≤ c.ind0 ∨ c.ind1 ≤ c.ind_ax.getD k 0) := by
    have hmin : c.ind0 = c.ind_ax.getD 0 0 :=
      listMin_sorted_getD c.ind_ax (by omega) hpw
    have hmax : c.ind1 = c.ind_ax.getD (c.ind_ax.length - 1) 0 :=
      listMax_sorted_getD c.ind_ax (by omega) hpw
    have h1 : c.ind_ax.getD 0 0 < c.ind_ax.getD k 0 :=
      pairwise_getD_lt c.ind_ax hpw 0 k hk0 hklen
    have h2 : c.ind_ax.getD k 0 < c.ind_ax.getD (c.ind_ax.length - 1) 0 :=
      pairwise_getD_lt c.ind_ax hpw k (c.ind_ax.length - 1) (by omega) (by omega)
    rw [hmin, hmax]
    push_neg
    constructor <;> linarith
  have hi1 : c.i1 (c.ind_ax.getD k 0) = (k : ℤ) - 1 := by
    unfold CntsNormIntp.i1
    rw [hi0, if_neg (lt_irrefl _)]
  have hpy1 : pyIdx c.ind_ax (c.i1 (c.ind_ax.getD k 0)) = c.ind_ax.getD (k - 1) 0 := by
    rw [hi1]
    unfold pyIdx
    rw [if_neg (by omega)]
    congr 1
    omega
  have hdenval : c.den (c.ind_ax.getD k 0) =
      |c.ind_ax.getD k 0 - c.ind_ax.getD (k - 1) 0| := by
    unfold CntsNormIntp.den
    rw [hi0, hpy1]
  have hden : c.den (c.ind_ax.getD k 0) ≠ 0 := by
    rw [hdenval]
    have := pairwise_getD_lt c.ind_ax hpw (k - 1) k (by omega) hklen
    rw [abs_ne_zero, sub_ne_zero]
    exact ne_of_gt this
  have hA0 : c.A0 (c.ind_ax.getD k 0) = 1 := by
    unfold CntsNormIntp.A0
    rw [hpy1, hdenval]
    exact div_self (hdenval ▸ hden)
  have hrow0 : pyRow c.cnt_ebins_norm_ind_mat ((c.i0 (c.ind_ax.getD k 0) : ℤ)) =
      c.cnt_ebins_norm_ind_mat.getD k [] := by
    rw [hi0]
    unfold pyRow
    rw [if_neg (by omega)]
    congr 1
  have hrow1 : pyRow c.cnt_ebins_norm_ind_mat (c.i1 (c.ind_ax.getD k 0)) =
      c.cnt_ebins_norm_ind_mat.getD (k - 1) [] := by
    rw [hi1]
    unfold pyRow
    rw [if_neg (by omega)]
    congr 1
    omega
  have hmemrow : ∀ j, j < c.cnt_ebins_norm_ind_mat.length →
      c.cnt_ebins_norm_ind_mat.getD j [] ∈ c.cnt_ebins_norm_ind_mat := by
    intro j hj
    rw [List.getD_eq_getElem _ _ hj]
    exact List.getElem_mem _
  have hlen0 : (c.cnt_ebins_norm_ind_mat.getD k []).length = c.ncols :=
    hrect _ (hmemrow k (by omega))
  have hlen1 : (c.cnt_ebins_norm_ind_mat.getD (k - 1) []).length = c.ncols :=
    hrect _ (hmemrow (k - 1) (by omega))
  unfold CntsNormIntp.call
  rw [if_neg hguard, if_neg hden, hrow0, hrow1]
  simp only [hA0]
  exact zipWith_weight_one _ _ (by rw [hlen0, hlen1])

/-- Witness for C6 at a concrete interior grid point: querying the
3-point-grid interpolator at grid index 1 returns row 1 unchanged. -/
theorem intp_interior_grid_idempotent_witness :
    (0 < 1 ∧ 1 + 1 < cIntpW6.ind_ax.length ∧
      cIntpW6.ind_ax.Pairwise (· < ·) ∧
      cIntpW6.cnt_ebins_norm_ind_mat.length = cIntpW6.ind_ax.length ∧
      (∀ row ∈ cIntpW6.cnt_ebins_norm_ind_mat, row.length = cIntpW6.ncols)) ∧
    cIntpW6.call (cIntpW6.ind_ax.getD 1 0) =
      (cIntpW6.cnt_ebins_norm_ind_mat.getD 1 []).map some :=
  ⟨⟨by decide, by with_unfolding_all decide, by with_unfolding_all decide,
      by with_unfolding_all decide, by with_unfolding_all decide⟩,
    intp_interior_grid_idempotent cIntpW6 1 (by decide)
      (by with_unfolding_all decide) (by with_unfolding_all decide)
      (by with_unfolding_all decide) (by with_unfolding_all decide)⟩

lemma quadratic_plus_root (a b c q : ℝ) (ha : a ≠ 0)
    (hq : q ^ 2 = b ^ 2 - 4 * a * c) :
    a * ((-b + q) / (2 * a)) ^ 2 + b * ((-b + q) / (2 * a)) + c = 0 := by
  field_simp
  nlinarith [hq]

lemma quad_disc_nonneg (d s sdt o odt sig : ℝ) (hd : 0 ≤ d) :
    0 ≤ quad_disc d s sdt o odt sig := by
  have hiden : quad_disc d s sdt o odt sig =
      (sdt * sig ^ 2 - odt * o - odt ^ 2 * s) ^ 2 + 4 * odt ^ 2 * sig ^ 2 * d := by
    unfold quad_disc
    ring
  rw [hiden]
  have h1 : 0 ≤ (sdt * sig ^ 2 - odt * o - odt ^ 2 * s) ^ 2 := sq_nonneg _
  have h2 : 0 ≤ 4 * odt ^ 2 * sig ^ 2 * d := by positivity
  linarith

/-- C1: for valid inputs (non-negative observed counts, positive
off-region exposure and positive uncertainty) the profiled background
rate `f_i` of `profiled_bkg_llh` satisfies the quadratic equation
`odt^2 f^2 + (sdt sig^2 - odt o + odt^2 s) f
  + (sdt sig^2 s - d sig^2 - odt o s) = 0`, being its plus-branch
root. -/
theorem profiled_fi_solves_quadratic (d s sdt o odt sig : ℝ)
    (hd : 0 ≤ d) (hsig : 0 < sig) (hodt : 0 < odt) :
    odt ^ 2 * f_i d s sdt o odt sig ^ 2 +
      (sdt * sig ^ 2 - odt * o + odt ^ 2 * s) * f_i d s sdt o odt sig +
      (sdt * sig ^ 2 * s - d * sig ^ 2 - odt * o * s) = 0 := by
  have hdisc : 0 ≤ quad_disc d s sdt o odt sig := quad_disc_nonneg d s sdt o odt sig hd
  have hq : Real.sqrt (quad_disc d s sdt o odt sig) ^ 2 =
      (sdt * sig ^ 2 - odt * o + odt ^ 2 * s) ^ 2 -
        4 * odt ^ 2 * (sdt * sig ^ 2 * s - d * sig ^ 2 - odt * o * s) := by
    rw [Real.sq_sqrt hdisc]
    unfold quad_disc
    ring
  have hb : s * odt ^ 2 = odt ^ 2 * s := mul_comm _ _
  unfold f_i
  rw [hb]
  exact quadratic_plus_root (odt ^ 2) (sdt * sig ^ 2 - odt * o + odt ^ 2 * s)
    (sdt * sig ^ 2 * s - d * sig ^ 2 - odt * o * s)
    (Real.sqrt (quad_disc d s sdt o odt sig)) (by positivity) hq

/-- Witness for C1 at the concrete valid input
`d = 1, s = 0, sdt = 1, o = 1, odt = 1, sig = 1`. -/
theorem profiled_fi_solves_quadratic_witness :
    ((0 : ℝ) ≤ 1 ∧ (0 : ℝ) < 1 ∧ (0 : ℝ) < 1) ∧
    (1 : ℝ) ^ 2 * f_i 1 0 1 1 1 1 ^ 2 +
      (1 * 1 ^ 2 - 1 * 1 + 1 ^ 2 * 0) * f_i 1 0 1 1 1 1 +
      (1 * 1 ^ 2 * 0 - 1 * 1 ^ 2 - 1 * 1 * 0) = 0 :=
  ⟨⟨zero_le_one, one_pos, one_pos⟩,
    profiled_fi_solves_quadratic 1 0 1 1 1 1 zero_le_one one_pos one_pos⟩

lemma bind_none_const {α β : Type} (x : Option α) :
    x.bind (fun _ => (none : Option β)) = none := by
  cases x <;> rfl

/-- C3 is a code bug: with off-region uncertainty `sigma = 0` the
Gaussian penalty term of `profiled_bkg_llh` divides by `2*sigma**2 = 0`,
so the float result is non-finite (inf or NaN, here `none`) at the
failing input `d = 1, s = 0, sdt = 1, o = 2, odt = 1, sigma = 0`, and
not the well-defined finite value the specification requires. -/
theorem profiled_llh_sigma_zero_not_finite :
    profiled_bkg_llh [1] [some 0] 1 [2] 1 [0] = none := by
  have hdisc : ¬ quad_disc 1 0 1 2 1 0 < 0 := by
    unfold quad_disc
    norm_num
  have hpen : fdiv ((2 - 1 * f_i 1 0 1 2 1 0) ^ 2) (2 * (0 : ℝ) ^ 2) = none := by
    unfold fdiv
    rw [if_pos (by norm_num)]
  unfold profiled_bkg_llh optSum
  simp only [List.zip_cons_cons, List.zip_nil_right, List.map_cons, List.map_nil,
    Option.some_bind]
  rw [llh_bin, if_neg hdisc, if_neg one_ne_zero]
  simp only [hpen, Option.none_bind, bind_none_const, Option.none_bind]

/-- C4 is a code bug: with observed counts `d = 0` in an energy bin the
normalization term `d*(1 - log(d))` of `profiled_bkg_llh` evaluates
`log(0)` and `0*inf`, so the float result is NaN (here `none`) at the
failing input `d = 0, s = 1, sdt = 1, o = 10, odt = 1, sigma = 1`, and
not the well-defined finite value the specification requires. -/
theorem profiled_llh_data_zero_not_finite :
    profiled_bkg_llh [0] [some 1] 1 [10] 1 [1] = none := by
  have hdisc : ¬ quad_disc 0 1 1 10 1 1 < 0 := by
    unfold quad_disc
    norm_num
  have hnl : flog (0 : ℝ) = none := by
    unfold flog
    rw [if_neg (lt_irrefl 0)]
  unfold profiled_bkg_llh optSum
  simp only [List.zip_cons_cons, List.zip_nil_right, List.map_cons, List.map_nil,
    Option.some_bind]
  rw [llh_bin, if_neg hdisc, if_neg one_ne_zero]
  simp only [hnl, Option.map_none', bind_none_const, Option.none_bind]

/-- C7: a spectral index outside `[-1, 3]` makes `rate_llh2min` return
positive infinity regardless of every other argument and of the
interpolator (a hard penalty, evaluated before any template query); the
result depends on the interpolator only through its values on `[-1, 3]`;
and that interval lies strictly inside the default grid domain, between
the minimum and the maximum of `ind_ax = linspace(-1.5, 3.5, 101)`. -/
theorem rate_llh2min_penalty_bounds (theta : ℝ × ℝ)
    (data bkg_cnts bkg_err : List ℝ) (sig_dt bkg_dt : ℝ) :
    ((theta.2 < -1 ∨ 3 < theta.2) →
      ∀ cnorm : ℝ → List (Option ℝ),
        rate_llh2min theta data bkg_cnts bkg_err sig_dt bkg_dt cnorm = some ⊤) ∧
    (∀ cnA cnB : ℝ → List (Option ℝ),
      (∀ x, -1 ≤ x → x ≤ 3 → cnA x = cnB x) →
        rate_llh2min theta data bkg_cnts bkg_err sig_dt bkg_dt cnA =
          rate_llh2min theta data bkg_cnts bkg_err sig_dt bkg_dt cnB) ∧
    (∀ x : ℚ, -1 ≤ x → x ≤ 3 →
      listMin indAxDefault < x ∧ x < listMax indAxDefault) := by
  refine ⟨?_, ?_, ?_⟩
  · intro h cnorm
    unfold rate_llh2min
    rw [if_pos h]
  · intro cnA cnB hagree
    by_cases h : theta.2 < -1 ∨ 3 < theta.2
    · unfold rate_llh2min
      rw [if_pos h, if_pos h]
    · unfold rate_llh2min
      rw [if_neg h, if_neg h]
      push_neg at h
      rw [hagree theta.2 h.1 h.2]
  · intro x h1 h3
    have hmin : listMin indAxDefault = -1.5 := by with_unfolding_all decide
    have hmax : listMax indAxDefault = 3.5 := by with_unfolding_all decide
    rw [hmin, hmax]
    have ha : (-1.5 : ℚ) < -1 := by norm_num
    have hb : (3 : ℚ) < 3.5 := by norm_num
    constructor <;> linarith

/-- Witness for C7 at concrete inputs: the penalty branch at spectral
index 4, interpolator-independence at index 0, and the strict inclusion
of the query interval inside the default grid domain at index 0. -/
theorem rate_llh2min_penalty_bounds_witness :
    rate_llh2min ((0 : ℝ), (4 : ℝ)) [] [] [] 1 1 (fun _ => []) = some ⊤ ∧
    rate_llh2min ((0 : ℝ), (0 : ℝ)) [] [] [] 1 1 (fun _ => [some 1]) =
      rate_llh2min ((0 : ℝ), (0 : ℝ)) [] [] [] 1 1 (fun _x => [some 1]) ∧
    (listMin indAxDefault < (0 : ℚ) ∧ (0 : ℚ) < listMax indAxDefault) :=
  ⟨(rate_llh2min_penalty_bounds ((0 : ℝ), (4 : ℝ)) [] [] [] 1 1).1
      (Or.inr (by norm_num)) (fun _ => []),
    (rate_llh2min_penalty_bounds ((0 : ℝ), (0 : ℝ)) [] [] [] 1 1).2.1
      (fun _ => [some 1]) (fun _x => [some 1]) (fun _ _ _ => rfl),
    (rate_llh2min_penalty_bounds ((0 : ℝ), (4 : ℝ)) [] [] [] 1 1).2.2 0
      (by norm_num) (by norm_num)⟩

lemma foldl_if_mul_no_hit (q : ℕ → Bool) (c : ℕ → ℝ) :
    ∀ (l : List ℕ) (p0 : ℝ), (∀ j ∈ l, q j = false) →
      l.foldl (fun p i => if q i then p * c i else p) p0 = p0 := by
  intro l
  induction l with
  | nil => intro p0 _; rfl
  | cons x xs ih =>
      intro p0 h
      simp only [List.foldl_cons, h x (List.mem_cons_self x xs), Bool.false_eq_true,
        if_false]
      exact ih p0 (fun j hj => h j (List.mem_cons_of_mem _ hj))

lemma foldl_if_mul_single_hit (q : ℕ → Bool) (c : ℕ → ℝ) :
    ∀ (l : List ℕ) (p0 : ℝ) (k : ℕ), k ∈ l → q k = true →
      (∀ j ∈ l, j ≠ k → q j = false) → l.Nodup →
      l.foldl (fun p i => if q i then p * c i else p) p0 = p0 * c k := by
  intro l
  induction l with
  | nil => intro p0 k hk; cases hk
  | cons x xs ih =>
      intro p0 k hk hq huniq hnd
      rcases List.mem_cons.mp hk with hkx | hkxs
      · subst hkx
        simp only [List.foldl_cons, hq, if_true]
        apply foldl_if_mul_no_hit
        intro j hj
        exact huniq j (List.mem_cons_of_mem _ hj)
          (fun hc => (List.nodup_cons.mp hnd).1 (hc ▸ hj))
      · have hxk : x ≠ k := fun hc => (List.nodup_cons.mp hnd).1 (hc ▸ hkxs)
        simp only [List.foldl_cons, huniq x (List.mem_cons_self x xs) hxk,
          Bool.false_eq_true, if_false]
        exact ih p0 k hkxs hq
          (fun j hj hne => huniq j (List.mem_cons_of_mem _ hj) hne)
          (List.nodup_cons.mp hnd).2

/-- C2: for a result row whose exposure lies in exactly one duration
class `k` among the `ndbl + 1` classes checked by the trials loop, the
final p-value is `1 - exp(-q)` with
`q = chi2sf(2*(bkg_llh - sig_llh)) * (count of rows in class k) / dt_tot`
where `dt_tot` is the total observed span: the correction factor is the
per-class one, applied once. -/
theorem trials_correction_per_class (chi2sf : ℝ → ℝ) (rows : List ResRow)
    (ndbl k : ℕ) (r : ResRow)
    (hk : k < ndbl + 1)
    (hmem : isclose (rowExp r) (classVal k) = true)
    (huniq : ∀ j ∈ List.range (ndbl + 1), j ≠ k →
      isclose (rowExp r) (classVal j) = false) :
    finalPval chi2sf rows ndbl r =
      1 - Real.exp (-(chi2sf (2 * (r.bkg_llh - r.sig_llh)) *
        ((countClass rows k : ℝ) / ((dtTot rows : ℚ) : ℝ)))) := by
  have h := foldl_if_mul_single_hit
    (fun i => isclose (rowExp r) (classVal i))
    (fun i => (countClass rows i : ℝ) / ((dtTot rows : ℚ) : ℝ))
    (List.range (ndbl + 1)) (chi2sf (2 * (r.bkg_llh - r.sig_llh))) k
    (List.mem_range.mpr hk) hmem huniq (List.nodup_range (ndbl + 1))
  unfold finalPval correctedP
  rw [h]

/-- Witness for C2: a two-row table (exposures 0.128 and 0.256 over span
0.256) with the identity in place of the chi-squared survival function;
the class-0 row receives exactly the class-0 correction factor. -/
theorem trials_correction_per_class_witness :
    ((0 : ℕ) < 1 + 1 ∧ isclose (rowExp rW1) (classVal 0) = true ∧
      (∀ j ∈ List.range (1 + 1), j ≠ 0 →
        isclose (rowExp rW1) (classVal j) = false)) ∧
    finalPval (fun t => t) rowsW 1 rW1 =
      1 - Real.exp (-((fun t : ℝ => t) (2 * (rW1.bkg_llh - rW1.sig_llh)) *
        ((countClass rowsW 0 : ℝ) / ((dtTot rowsW : ℚ) : ℝ)))) :=
  ⟨⟨by decide, by with_unfolding_all decide, by with_unfolding_all decide⟩,
    trials_correction_per_class (fun t => t) rowsW 1 0 rW1 (by decide)
      (by with_unfolding_all decide) (by with_unfolding_all decide)⟩
